import Mathlib

/-!
Shallow embedding of `src/dm_mstp.py` (class `DMMSTP`), the DM-MSTP
max-of-column-minima spanning procedure.

Weights are rationals; the numpy sentinel `np.inf` is modelled by `⊤` in
`W := WithTop ℚ`.  A numpy `n × n` matrix is a square `List (List W)`
in row-major order; Python index sets are `List Nat` used only through
membership, the only operation the source performs on them.  Operations
that raise in Python (`max` of an empty list, access to a not-yet-assigned
attribute, `KeyError` lookups) are modelled with `Option`/`Except`.
-/

namespace DM

/-- Weights: a rational, or the sentinel `np.inf` (`⊤`). -/
abbrev W : Type := WithTop ℚ

/-- A graph description, the value of `graph_data['distance_edges']`: an
insertion-ordered dict from node id to an insertion-ordered dict of
neighbour ids and weights. -/
abbrev Graph (α : Type) : Type := List (α × List (α × ℚ))

/-- First index at which `v` occurs in a list (Python `list.index(v)`;
also the first-occurrence behaviour of `np.argmin` once the minimum value
is known); `l.length` when `v` does not occur. -/
def idxOf {α : Type} [DecidableEq α] (v : α) : List α → Nat
  | [] => 0
  | a :: as => if a = v then 0 else idxOf v as + 1

/-- `np.min` over a list of weights.  Meaningful on nonempty input only
(numpy raises on an empty array); every call site below passes a list
whose length is the positive number of matrix rows. -/
def listMin : List W → W
  | [] => ⊤
  | a :: as => as.foldl min a

/-- Python `max` over a list of weights; `none` on the empty list, where
Python raises `ValueError`. -/
def listMax : List W → Option W
  | [] => none
  | a :: as => some (as.foldl max a)

/-- `matrix[r][c]`.  All reads performed by the source are in range for
its `n × n` matrices; out-of-range reads default to the sentinel. -/
def entry (m : List (List W)) (r c : Nat) : W := (m.getD r []).getD c ⊤

/-- `matrix[:, c]`: column `c` read downwards, one entry per row. -/
def colEntries (m : List (List W)) (c : Nat) : List W :=
  m.map (fun row => row.getD c ⊤)

/-- `matrix[i][j] = w` (a no-op out of range; the source never writes out
of range). -/
def setEntry (m : List (List W)) (i j : Nat) (w : W) : List (List W) :=
  m.set i ((m.getD i []).set j w)

/-- `_initialize_matrix` (`dm_mstp.py` lines 22–52): collect every node id
appearing as a key or as a neighbour key, assign dense indices in
enumeration order, start from an `n × n` matrix filled with `np.inf`, and
write each listed weight into both symmetric positions.  Python does not
specify the enumeration order of the `set` of nodes, so the order is an
explicit parameter `order` here; `idxOf · order` plays `node_indices`. -/
def buildMatrix {α : Type} [DecidableEq α] (order : List α) (g : Graph α) :
    List (List W) :=
  g.foldl (fun m p =>
    p.2.foldl (fun m' q =>
      setEntry (setEntry m' (idxOf p.1 order) (idxOf q.1 order) (q.2 : W))
        (idxOf q.1 order) (idxOf p.1 order) (q.2 : W)) m)
    (List.replicate order.length (List.replicate order.length (⊤ : W)))

/-- Python `set.add`: append if absent (the sets are only read via `∈`). -/
def addMark (v : Nat) (s : List Nat) : List Nat := if v ∈ s then s else v :: s

/-- The mutable state of one `DMMSTP` instance. -/
structure DMState where
  matrix : List (List W)
  minCols : List W
  mstPath : List (Nat × Nat × W)
  markedRows : List Nat
  markedCols : List Nat
deriving DecidableEq

/-- `_initialize_min_columns` (lines 54–72), as the pure function of the
matrix and the marked-column set it reads: one entry per column
(`range(matrix.shape[1])`, and `shape[1] = matrix.length` for the square
matrices of a run); a marked column yields the sentinel, an unmarked one
the minimum of the column taken over all rows. -/
def initMinColumns (m : List (List W)) (marked : List Nat) : List W :=
  (List.range m.length).map fun c =>
    if c ∈ marked then (⊤ : W) else listMin (colEntries m c)

/-- `_select_edge` (lines 83–96): the first column attaining the maximum
of `min_columns`, the first row attaining the minimum of that column of
the current matrix, and the matrix entry there.  `none` models the
`ValueError` of Python `max` on an empty list and the error `np.argmin`
raises on an empty column; neither is reachable in a run with `n ≥ 1`. -/
def selectEdge (minCols : List W) (m : List (List W)) :
    Option (Nat × Nat × W) :=
  match listMax minCols with
  | none => none
  | some maxV =>
    let c := idxOf maxV minCols
    let col := colEntries m c
    if col.isEmpty then none
    else
      let r := idxOf (listMin col) col
      some (r, c, entry m r c)

/-- `matrix[i, :] = np.inf` (line 112). -/
def dropRow (m : List (List W)) (i : Nat) : List (List W) :=
  m.set i ((m.getD i []).map fun _ => (⊤ : W))

/-- `matrix[:, j] = np.inf` (line 113). -/
def dropCol (m : List (List W)) (j : Nat) : List (List W) :=
  m.map fun row => row.set j ⊤

/-- `_mark_and_drop` (lines 98–113). -/
def markAndDrop (s : DMState) (e : Nat × Nat × W) : DMState :=
  { s with
    markedRows := addMark e.1 s.markedRows
    markedCols := addMark e.2.1 s.markedCols
    matrix := dropCol (dropRow s.matrix e.1) e.2.1 }

/-- One iteration of the loop of `run` (lines 135–140): select, record,
mark-and-drop, recompute `min_columns`. -/
def step (s : DMState) : Option DMState :=
  match selectEdge s.minCols s.matrix with
  | none => none
  | some e =>
    let s1 := markAndDrop { s with mstPath := s.mstPath ++ [e] } e
    some { s1 with minCols := initMinColumns s1.matrix s1.markedCols }

/-- `k` iterations of the loop. -/
def runLoop : Nat → DMState → Option DMState
  | 0, s => some s
  | k + 1, s =>
    match step s with
    | none => none
    | some s' => runLoop k s'

/-- Python exceptions surfaced by the constructor and the driver. -/
inductive PyErr
  | attributeError
  | valueError
  | keyError
deriving DecidableEq

/-- The constructor `__init__` (lines 15–20), modelled faithfully: line 17
computes `min_columns` via `_initialize_min_columns`, whose loop body
reads `self.marked_columns` (line 66) — an attribute that is only assigned
later, at line 20.  For a matrix with at least one column the first loop
iteration therefore raises `AttributeError`; only a `0 × 0` matrix (empty
graph) skips the loop body and completes initialization. -/
def initE {α : Type} [DecidableEq α] (order : List α) (g : Graph α) :
    Except PyErr DMState :=
  let m := buildMatrix order g
  if m.length = 0 then
    .ok { matrix := m, minCols := [], mstPath := [],
          markedRows := [], markedCols := [] }
  else
    .error .attributeError

/-- The state `__init__` is evidently meant to construct, and constructs
field-for-field once the ordering slip modelled in `initE` is repaired:
`min_columns` is computed against the empty marked-column set that line 20
assigns, and the path and both marked sets start empty. -/
def initState {α : Type} [DecidableEq α] (order : List α) (g : Graph α) :
    DMState :=
  let m := buildMatrix order g
  { matrix := m
    minCols := initMinColumns m []
    mstPath := []
    markedRows := []
    markedCols := [] }

/-- `_generate_mst_output` (lines 115–124): translate each recorded index
pair back through the inverse of `node_indices`; `order.get? i` is exactly
`inverse_node_indices[i]`, with `none` modelling the `KeyError` an unknown
index would raise. -/
def generateOutput {α : Type} (order : List α) :
    List (Nat × Nat × W) → Option (List (α × α × W))
  | [] => some []
  | (i, j, w) :: rest =>
    match order.get? i, order.get? j, generateOutput order rest with
    | some a, some b, some out => some ((a, b, w) :: out)
    | _, _, _ => none

/-- `run` (lines 128–142) from an initialized state:
`len(node_indices) - 1` loop iterations, then output translation. -/
def runFrom {α : Type} [DecidableEq α] (order : List α) (g : Graph α) :
    Option (List (α × α × W)) :=
  match runLoop (order.length - 1) (initState order g) with
  | none => none
  | some s => generateOutput order s.mstPath

instance {ε α : Type} [DecidableEq ε] [DecidableEq α] :
    DecidableEq (Except ε α) := fun x y =>
  match x, y with
  | .error a, .error b =>
    if h : a = b then isTrue (by rw [h]) else isFalse (by simp [h])
  | .ok a, .ok b =>
    if h : a = b then isTrue (by rw [h]) else isFalse (by simp [h])
  | .error _, .ok _ => isFalse (by simp)
  | .ok _, .error _ => isFalse (by simp)

/-- Constructing a `DMMSTP` instance and calling `run` on it, with the
constructor modelled faithfully (`initE`). -/
def runE {α : Type} [DecidableEq α] (order : List α) (g : Graph α) :
    Except PyErr (List (α × α × W)) :=
  match initE order g with
  | .error e => .error e
  | .ok s =>
    match runLoop (order.length - 1) s with
    | none => .error .valueError
    | some s' =>
      match generateOutput order s'.mstPath with
      | some out => .ok out
      | none => .error .keyError

/-- Every node id mentioned by the input (keys and neighbour keys), in
scan order; the Python `set` `nodes` of `_initialize_matrix` holds exactly
these. -/
def nodesOf {α : Type} (g : Graph α) : List α :=
  g.foldl (fun acc p => acc ++ p.1 :: p.2.map Prod.fst) []

/-- The complete 3-node example of the spec: A–B=1, A–C=2, B–C=3. -/
def triG : Graph String := [("A", [("B", 1), ("C", 2)]), ("B", [("C", 3)])]

/-- The node enumeration giving the index assignment A=0, B=1, C=2. -/
def triOrder : List String := ["A", "B", "C"]

/-- A one-node graph (N = 1). -/
def oneG : Graph String := [("A", [])]

/-- A graph whose only entry is self-referential: `{'A': {'A': 5}}`. -/
def selfG : Graph String := [("A", [("A", 5)])]

/-- The state reached after the first loop iteration on the triangle. -/
def triS1 : DMState :=
  { matrix := [[⊤, ⊤, ⊤],
               [((1 : ℚ) : W), ⊤, ⊤],
               [((2 : ℚ) : W), ((3 : ℚ) : W), ⊤]]
    minCols := [((1 : ℚ) : W), ((3 : ℚ) : W), ⊤]
    mstPath := [(0, 2, ((2 : ℚ) : W))]
    markedRows := [0]
    markedCols := [2] }

/-! ### List infrastructure lemmas -/

theorem getD_get? {β : Type} (l : List β) (i : Nat) (d : β) :
    l.getD i d = (l.get? i).getD d := by
  simp [List.getD]

theorem getD_set {β : Type} (l : List β) (a i : Nat) (x d : β) :
    (l.set a x).getD i d = if i = a ∧ i < l.length then x else l.getD i d := by
  induction l generalizing a i with
  | nil => simp
  | cons b bs ih =>
    cases a with
    | zero =>
      cases i with
      | zero => simp
      | succ i => simp [Nat.succ_ne_zero]
    | succ a =>
      cases i with
      | zero => simp
      | succ i =>
        rw [List.set_cons_succ, List.getD_cons_succ, List.getD_cons_succ, ih]
        simp [Nat.succ_lt_succ_iff]

theorem getD_mem {β : Type} {l : List β} {i : Nat} (h : i < l.length) (d : β) :
    l.getD i d ∈ l := by
  induction l generalizing i with
  | nil => simp at h
  | cons b bs ih =>
    cases i with
    | zero => simp
    | succ i =>
      rw [List.getD_cons_succ]
      exact List.mem_cons_of_mem _ (ih (by simpa using h) )

theorem mem_getD {β : Type} {l : List β} {x : β} (h : x ∈ l) (d : β) :
    ∃ i, i < l.length ∧ l.getD i d = x := by
  induction l with
  | nil => cases h
  | cons b bs ih =>
    rcases List.mem_cons.mp h with rfl | h
    · exact ⟨0, by simp, rfl⟩
    · obtain ⟨i, hi, hget⟩ := ih h
      exact ⟨i + 1, by simpa using hi, by simpa using hget⟩

theorem getD_concat_length {β : Type} (l : List β) (e d : β) :
    (l ++ [e]).getD l.length d = e := by
  induction l with
  | nil => rfl
  | cons b bs ih => simpa using ih

/-! ### `idxOf` lemmas -/

theorem idxOf_le_length {α : Type} [DecidableEq α] (v : α) (l : List α) :
    idxOf v l ≤ l.length := by
  induction l with
  | nil => simp [idxOf]
  | cons a as ih =>
    by_cases h : a = v <;> simp [idxOf, h] <;> omega

theorem idxOf_lt_length {α : Type} [DecidableEq α] {v : α} {l : List α}
    (h : v ∈ l) : idxOf v l < l.length := by
  induction l with
  | nil => cases h
  | cons a as ih =>
    by_cases hav : a = v
    · simp [idxOf, hav]
    · have : v ∈ as := by
        rcases List.mem_cons.mp h with h' | h'
        · exact absurd h'.symm hav
        · exact h'
      simp only [idxOf, hav, if_false, List.length_cons]
      exact Nat.succ_lt_succ (ih this)

theorem getD_idxOf {α : Type} [DecidableEq α] {v : α} {l : List α}
    (h : idxOf v l < l.length) (d : α) : l.getD (idxOf v l) d = v := by
  induction l with
  | nil => simp [idxOf] at h
  | cons a as ih =>
    by_cases hav : a = v
    · simp [idxOf, hav]
    · simp only [idxOf, hav, if_false, List.length_cons] at h
      simp only [idxOf, hav, if_false, List.getD_cons_succ]
      exact ih (Nat.lt_of_succ_lt_succ h)

theorem getD_lt_idxOf {α : Type} [DecidableEq α] {v : α} {l : List α}
    {i : Nat} (h : i < idxOf v l) (d : α) : l.getD i d ≠ v := by
  induction l generalizing i with
  | nil => simp [idxOf] at h
  | cons a as ih =>
    by_cases hav : a = v
    · simp [idxOf, hav] at h
    · cases i with
      | zero => simpa using hav
      | succ i =>
        simp only [idxOf, hav, if_false] at h
        rw [List.getD_cons_succ]
        exact ih (Nat.lt_of_succ_lt_succ h)

/-! ### `min`/`max` folds -/

theorem foldl_min_le_init (as : List W) (a : W) : as.foldl min a ≤ a := by
  induction as generalizing a with
  | nil => simp
  | cons b bs ih => exact le_trans (ih (min a b)) (min_le_left a b)

theorem foldl_min_le_mem {x : W} (as : List W) (a : W) (hx : x ∈ as) :
    as.foldl min a ≤ x := by
  induction as generalizing a with
  | nil => cases hx
  | cons b bs ih =>
    rcases List.mem_cons.mp hx with rfl | h
    · exact le_trans (foldl_min_le_init bs (min a x)) (min_le_right a x)
    · exact ih (min a b) h

theorem foldl_min_mem (as : List W) (a : W) :
    as.foldl min a = a ∨ as.foldl min a ∈ as := by
  induction as generalizing a with
  | nil => exact Or.inl rfl
  | cons b bs ih =>
    rcases ih (min a b) with h | h
    · rcases le_total a b with hab | hab
      · rw [List.foldl_cons, h, min_eq_left hab]; exact Or.inl rfl
      · rw [List.foldl_cons, h, min_eq_right hab]
        exact Or.inr (List.mem_cons_self b bs)
    · exact Or.inr (List.mem_cons_of_mem _ h)

theorem le_foldl_max_init (as : List W) (a : W) : a ≤ as.foldl max a := by
  induction as generalizing a with
  | nil => simp
  | cons b bs ih => exact le_trans (le_max_left a b) (ih (max a b))

theorem le_foldl_max_mem {x : W} (as : List W) (a : W) (hx : x ∈ as) :
    x ≤ as.foldl max a := by
  induction as generalizing a with
  | nil => cases hx
  | cons b bs ih =>
    rcases List.mem_cons.mp hx with rfl | h
    · exact le_trans (le_max_right a x) (le_foldl_max_init bs (max a x))
    · exact ih (max a b) h

theorem foldl_max_mem (as : List W) (a : W) :
    as.foldl max a = a ∨ as.foldl max a ∈ as := by
  induction as generalizing a with
  | nil => exact Or.inl rfl
  | cons b bs ih =>
    rcases ih (max a b) with h | h
    · rcases le_total a b with hab | hab
      · rw [List.foldl_cons, h, max_eq_right hab]
        exact Or.inr (List.mem_cons_self b bs)
      · rw [List.foldl_cons, h, max_eq_left hab]; exact Or.inl rfl
    · exact Or.inr (List.mem_cons_of_mem _ h)

/-! ### `listMin` / `listMax` -/

theorem listMin_mem {l : List W} (h : l ≠ []) : listMin l ∈ l := by
  cases l with
  | nil => exact absurd rfl h
  | cons a as =>
    rcases foldl_min_mem as a with h' | h'
    · rw [listMin, h']; exact List.mem_cons_self a as
    · rw [listMin]; exact List.mem_cons_of_mem _ h'

theorem listMin_le {l : List W} {x : W} (hx : x ∈ l) : listMin l ≤ x := by
  cases l with
  | nil => cases hx
  | cons a as =>
    rcases List.mem_cons.mp hx with rfl | h
    · exact foldl_min_le_init as x
    · exact foldl_min_le_mem as a h

theorem listMax_isSome {l : List W} (h : l ≠ []) :
    (listMax l).isSome = true := by
  cases l with
  | nil => exact absurd rfl h
  | cons a as => rfl

theorem listMax_mem {l : List W} {v : W} (h : listMax l = some v) : v ∈ l := by
  cases l with
  | nil => cases h
  | cons a as =>
    have hv : as.foldl max a = v := by simpa [listMax] using h
    rcases foldl_max_mem as a with h' | h'
    · rw [← hv, h']; exact List.mem_cons_self a as
    · rw [← hv]; exact List.mem_cons_of_mem _ h'

theorem le_listMax {l : List W} {v x : W} (h : listMax l = some v)
    (hx : x ∈ l) : x ≤ v := by
  cases l with
  | nil => cases hx
  | cons a as =>
    have hv : as.foldl max a = v := by simpa [listMax] using h
    rcases List.mem_cons.mp hx with rfl | h'
    · exact hv ▸ le_foldl_max_init as x
    · exact hv ▸ le_foldl_max_mem as a h'

/-! ### Matrix access and update lemmas -/

theorem entry_out_of_range {m : List (List W)} {r : Nat}
    (h : m.length ≤ r) (c : Nat) : entry m r c = ⊤ := by
  rw [entry, List.getD_eq_default _ _ h]
  rfl

theorem length_colEntries (m : List (List W)) (c : Nat) :
    (colEntries m c).length = m.length := List.length_map _ _

theorem getD_colEntries (m : List (List W)) (c r : Nat) :
    (colEntries m c).getD r ⊤ = entry m r c := by
  induction m generalizing r with
  | nil => simp [colEntries, entry]
  | cons row rows ih =>
    cases r with
    | zero => simp [colEntries, entry]
    | succ r =>
      rw [colEntries, List.map_cons, List.getD_cons_succ]
      rw [entry, List.getD_cons_succ]
      exact ih r

theorem length_setEntry (m : List (List W)) (i j : Nat) (w : W) :
    (setEntry m i j w).length = m.length := List.length_set _ _ _

theorem entry_setEntry (m : List (List W)) (i j : Nat) (w : W) (r c : Nat) :
    entry (setEntry m i j w) r c =
      if r = i ∧ i < m.length ∧ c = j ∧ j < (m.getD i []).length then w
      else entry m r c := by
  rw [setEntry, entry, getD_set]
  by_cases hr : r = i
  · by_cases hlen : i < m.length
    · rw [if_pos ⟨hr, by rw [hr]; exact hlen⟩, getD_set]
      by_cases hc : c = j
      · by_cases hclen : j < (m.getD i []).length
        · rw [if_pos ⟨hc, by rw [hc]; exact hclen⟩,
            if_pos ⟨hr, hlen, hc, hclen⟩]
        · rw [if_neg (by omega), if_neg (fun hcon => hclen hcon.2.2.2),
            entry, hr]
      · rw [if_neg (by omega), if_neg (fun hcon => hc hcon.2.2.1), entry, hr]
    · rw [if_neg (by omega), if_neg (fun hcon => hlen hcon.2.1), entry]
  · rw [if_neg (by omega), if_neg (fun hcon => hr hcon.1), entry]

theorem length_dropRow (m : List (List W)) (i : Nat) :
    (dropRow m i).length = m.length := List.length_set _ _ _

theorem length_dropCol (m : List (List W)) (j : Nat) :
    (dropCol m j).length = m.length := List.length_map _ _

theorem entry_dropRow (m : List (List W)) (i r c : Nat) :
    entry (dropRow m i) r c = if r = i then ⊤ else entry m r c := by
  rw [dropRow, entry, getD_set]
  by_cases hr : r = i
  · by_cases hlen : i < m.length
    · rw [if_pos ⟨hr, hr ▸ hlen⟩]
      rw [getD_get?, List.get?_map]
      cases (m.getD i []).get? c <;> simp [hr]
    · rw [if_neg (by omega), if_pos hr, ← entry, hr,
        entry_out_of_range (Nat.le_of_not_lt hlen)]
  · rw [if_neg (by omega), if_neg hr, entry]

theorem entry_dropCol (m : List (List W)) (j r c : Nat) :
    entry (dropCol m j) r c = if c = j then ⊤ else entry m r c := by
  rw [entry, getD_get? (dropCol m j) r, dropCol, List.get?_map]
  cases hm : m.get? r with
  | none =>
    have hr : m.length ≤ r := by
      by_contra h
      rw [List.get?_eq_get (Nat.lt_of_not_le h)] at hm
      cases hm
    rw [entry_out_of_range hr]
    simp
  | some row =>
    have : entry m r c = row.getD c ⊤ := by
      rw [entry, getD_get? m r, hm]; rfl
    rw [this]
    show (row.set j ⊤).getD c ⊤ = if c = j then ⊤ else row.getD c ⊤
    rw [getD_set]
    by_cases hc : c = j
    · by_cases hlen : j < row.length
      · rw [if_pos ⟨hc, by rw [hc]; exact hlen⟩, if_pos hc]
      · rw [if_neg (by omega), if_pos hc, hc,
          List.getD_eq_default _ _ (Nat.le_of_not_lt hlen)]
    · rw [if_neg (by omega), if_neg hc]

theorem length_initMinColumns (m : List (List W)) (marked : List Nat) :
    (initMinColumns m marked).length = m.length := by
  rw [initMinColumns, List.length_map, List.length_range]

theorem getD_initMinColumns (m : List (List W)) (marked : List Nat)
    {c : Nat} (h : c < m.length) :
    (initMinColumns m marked).getD c ⊤ =
      if c ∈ marked then (⊤ : W) else listMin (colEntries m c) := by
  rw [initMinColumns, getD_get?, List.get?_map, List.get?_range h]
  rfl

theorem mem_addMark {v x : Nat} {s : List Nat} :
    x ∈ addMark v s ↔ x = v ∨ x ∈ s := by
  rw [addMark]
  by_cases h : v ∈ s
  · rw [if_pos h]
    constructor
    · exact Or.inr
    · rintro (rfl | hx)
      · exact h
      · exact hx
  · rw [if_neg h]
    exact List.mem_cons

/-! ### Invariants of matrix construction -/

theorem foldl_preserve_mem {β γ : Type} (P : γ → Prop) (f : γ → β → γ)
    (l : List β) (hf : ∀ acc b, b ∈ l → P acc → P (f acc b)) :
    ∀ acc, P acc → P (l.foldl f acc) := by
  induction l with
  | nil => exact fun acc h => h
  | cons b bs ih =>
    intro acc h
    exact ih (fun acc' b' hb' hacc' =>
        hf acc' b' (List.mem_cons_of_mem _ hb') hacc') _
      (hf acc b (List.mem_cons_self b bs) h)

/-- Square matrix of size `n`, with every row of length `n`. -/
def Sq (n : Nat) (m : List (List W)) : Prop :=
  m.length = n ∧ ∀ row ∈ m, row.length = n

theorem sq_replicate (n : Nat) :
    Sq n (List.replicate n (List.replicate n (⊤ : W))) := by
  refine ⟨List.length_replicate _ _, ?_⟩
  intro row hrow
  rw [List.eq_of_mem_replicate hrow]
  exact List.length_replicate _ _

theorem sq_setEntry {n : Nat} {m : List (List W)} (hsq : Sq n m)
    (i j : Nat) (w : W) : Sq n (setEntry m i j w) := by
  by_cases hi : i < m.length
  · refine ⟨by rw [length_setEntry, hsq.1], ?_⟩
    intro row hrow
    rcases List.mem_or_eq_of_mem_set hrow with h | rfl
    · exact hsq.2 row h
    · rw [List.length_set]
      exact hsq.2 _ (getD_mem hi [])
  · rw [setEntry, List.set_eq_of_length_le (Nat.le_of_not_lt hi)]
    exact hsq

theorem getD_replicate_top (n c : Nat) :
    (List.replicate n (⊤ : W)).getD c ⊤ = ⊤ := by
  by_cases h : c < n
  · exact List.eq_of_mem_replicate
      (getD_mem (by simpa using h) (⊤ : W))
  · exact List.getD_eq_default _ _ (by simpa using Nat.le_of_not_lt h)

theorem entry_replicate (n r c : Nat) :
    entry (List.replicate n (List.replicate n (⊤ : W))) r c = ⊤ := by
  rw [entry]
  by_cases h : r < n
  · have hmem := getD_mem
      (by simpa using h :
        r < (List.replicate n (List.replicate n (⊤ : W))).length)
      ([] : List W)
    rw [List.eq_of_mem_replicate hmem]
    exact getD_replicate_top n c
  · rw [List.getD_eq_default (List.replicate n (List.replicate n (⊤ : W)))
      ([] : List W) (by simpa using Nat.le_of_not_lt h)]
    rfl

theorem entry_setEntry_sq {n : Nat} {m : List (List W)} (hsq : Sq n m)
    (i j : Nat) (w : W) (r c : Nat) :
    entry (setEntry m i j w) r c =
      if r = i ∧ i < n ∧ c = j ∧ j < n then w else entry m r c := by
  rw [entry_setEntry]
  by_cases hi : i < m.length
  · rw [hsq.2 _ (getD_mem hi []), hsq.1]
  · have hin : ¬ i < n := by rw [← hsq.1]; exact hi
    rw [if_neg (fun hcon => hi hcon.2.1), if_neg (fun hcon => hin hcon.2.1)]

theorem buildMatrix_pres {α : Type} [DecidableEq α] (order : List α)
    (g : Graph α) (P : List (List W) → Prop)
    (hbase :
      P (List.replicate order.length (List.replicate order.length (⊤ : W))))
    (hstep : ∀ m p q, p ∈ g → q ∈ p.2 → P m →
      P (setEntry (setEntry m (idxOf p.1 order) (idxOf q.1 order) (q.2 : W))
          (idxOf q.1 order) (idxOf p.1 order) (q.2 : W))) :
    P (buildMatrix order g) := by
  rw [buildMatrix]
  refine foldl_preserve_mem P _ g (fun m p hp hP => ?_) _ hbase
  exact foldl_preserve_mem P _ p.2
    (fun m' q hq hP' => hstep m' p q hp hq hP') m hP

/-- Entrywise symmetry. -/
def Symm (m : List (List W)) : Prop := ∀ r c, entry m r c = entry m c r

/-- Every diagonal entry is the sentinel. -/
def DiagTop (m : List (List W)) : Prop := ∀ d, entry m d d = ⊤

theorem buildMatrix_sq_symm {α : Type} [DecidableEq α] (order : List α)
    (g : Graph α) :
    Sq order.length (buildMatrix order g) ∧ Symm (buildMatrix order g) := by
  refine buildMatrix_pres order g
    (fun m => Sq order.length m ∧ Symm m)
    ⟨sq_replicate _, fun r c => by rw [entry_replicate, entry_replicate]⟩ ?_
  rintro m p q hp hq ⟨hsq, hsymm⟩
  have hsq1 := sq_setEntry hsq (idxOf p.1 order) (idxOf q.1 order) (q.2 : W)
  refine ⟨sq_setEntry hsq1 _ _ _, ?_⟩
  intro r c
  rw [entry_setEntry_sq hsq1, entry_setEntry_sq hsq1,
    entry_setEntry_sq hsq, entry_setEntry_sq hsq]
  split_ifs <;> first | rfl | exact hsymm r c | tauto

theorem buildMatrix_sq {α : Type} [DecidableEq α] (order : List α)
    (g : Graph α) : Sq order.length (buildMatrix order g) :=
  (buildMatrix_sq_symm order g).1

theorem idxOf_inj_of_lt {α : Type} [DecidableEq α] {a b : α} {l : List α}
    (h : idxOf a l = idxOf b l) (hlt : idxOf a l < l.length) : a = b := by
  have ha := getD_idxOf hlt a
  have hb := getD_idxOf (h ▸ hlt) a
  rw [← h] at hb
  exact ha.symm.trans hb

theorem buildMatrix_sq_diag {α : Type} [DecidableEq α] (order : List α)
    (g : Graph α) (hself : ∀ p ∈ g, ∀ q ∈ p.2, q.1 ≠ p.1) :
    Sq order.length (buildMatrix order g) ∧ DiagTop (buildMatrix order g) := by
  refine buildMatrix_pres order g
    (fun m => Sq order.length m ∧ DiagTop m)
    ⟨sq_replicate _, fun d => entry_replicate _ _ _⟩ ?_
  rintro m p q hp hq ⟨hsq, hdiag⟩
  have hsq1 := sq_setEntry hsq (idxOf p.1 order) (idxOf q.1 order) (q.2 : W)
  refine ⟨sq_setEntry hsq1 _ _ _, ?_⟩
  intro d
  rw [entry_setEntry_sq hsq1, entry_setEntry_sq hsq]
  have key : d = idxOf q.1 order → idxOf q.1 order < order.length →
      d = idxOf p.1 order → False := by
    intro h1 hlt h2
    rw [h1] at h2
    exact hself p hp q hq (idxOf_inj_of_lt h2 hlt)
  rw [if_neg (fun hcon => key hcon.1 hcon.2.1 hcon.2.2.1),
    if_neg (fun hcon => key hcon.2.2.1 hcon.2.2.2 hcon.1)]
  exact hdiag d

/-! ### Selection analysis -/

theorem selectEdge_eq {mc : List W} {m : List (List W)} {r c : Nat} {w : W}
    (h : selectEdge mc m = some (r, c, w)) :
    ∃ maxV, listMax mc = some maxV ∧ c = idxOf maxV mc ∧ m ≠ [] ∧
      r = idxOf (listMin (colEntries m c)) (colEntries m c) ∧
      w = entry m r c := by
  cases hmax : listMax mc with
  | none =>
    simp only [selectEdge, hmax] at h
    cases h
  | some maxV =>
    simp only [selectEdge, hmax] at h
    by_cases hemp : (colEntries m (idxOf maxV mc)).isEmpty
    · rw [if_pos hemp] at h; cases h
    · rw [if_neg hemp] at h
      have h2 := Option.some.inj h
      obtain ⟨hr, hc, hw⟩ :
          idxOf (listMin (colEntries m (idxOf maxV mc)))
              (colEntries m (idxOf maxV mc)) = r ∧
            idxOf maxV mc = c ∧
            entry m (idxOf (listMin (colEntries m (idxOf maxV mc)))
              (colEntries m (idxOf maxV mc))) (idxOf maxV mc) = w := by
        simpa [Prod.ext_iff] using h2
      subst hr; subst hc; subst hw
      refine ⟨maxV, rfl, rfl, ?_, rfl, rfl⟩
      intro hnil
      rw [hnil] at hemp
      exact hemp rfl

/-! ### Run-loop invariants -/

/-- Default edge for `List.getD` on recorded paths. -/
def edgeD : Nat × Nat × W := (0, 0, ⊤)

/-- Every marked column reads entirely as the sentinel. -/
def ColMarkedTop (s : DMState) : Prop :=
  ∀ c ∈ s.markedCols, ∀ r, entry s.matrix r c = ⊤

/-- The column index of every recorded edge has been marked. -/
def PathColsMarked (s : DMState) : Prop :=
  ∀ e ∈ s.mstPath, e.2.1 ∈ s.markedCols

/-- `min_columns` agrees with the current matrix and marked columns. -/
def Consistent (s : DMState) : Prop :=
  s.minCols = initMinColumns s.matrix s.markedCols

/-- A later edge re-using the column of an earlier edge carries `⊤`. -/
def PathOnceFinite (s : DMState) : Prop :=
  ∀ a b : Nat, a < b → b < s.mstPath.length →
    (s.mstPath.getD b edgeD).2.1 = (s.mstPath.getD a edgeD).2.1 →
    (s.mstPath.getD b edgeD).2.2 = ⊤

def Inv (s : DMState) : Prop :=
  ColMarkedTop s ∧ PathColsMarked s ∧ Consistent s ∧ PathOnceFinite s

theorem inv_initState {α : Type} [DecidableEq α] (order : List α)
    (g : Graph α) : Inv (initState order g) := by
  refine ⟨?_, ?_, rfl, ?_⟩
  · intro c hc
    simp [initState] at hc
  · intro e he
    simp [initState] at he
  · intro a b _ hb _
    simp [initState] at hb

/-- The successor state built by one loop iteration for selected edge
`(r, c, w)`. -/
def stepState (s : DMState) (r c : Nat) (w : W) : DMState :=
  { matrix := dropCol (dropRow s.matrix r) c
    minCols := initMinColumns (dropCol (dropRow s.matrix r) c)
        (addMark c s.markedCols)
    mstPath := s.mstPath ++ [(r, c, w)]
    markedRows := addMark r s.markedRows
    markedCols := addMark c s.markedCols }

theorem step_eq_some {s s' : DMState} (h : step s = some s') :
    ∃ r c w, selectEdge s.minCols s.matrix = some (r, c, w) ∧
      s' = stepState s r c w := by
  cases hsel : selectEdge s.minCols s.matrix with
  | none =>
    simp only [step, hsel] at h
    cases h
  | some e =>
    obtain ⟨r, c, w⟩ := e
    simp only [step, hsel] at h
    refine ⟨r, c, w, rfl, ?_⟩
    rw [← Option.some.inj h]
    rfl

theorem entry_stepState (s : DMState) (r c : Nat) (w : W) (r' c' : Nat) :
    entry (stepState s r c w).matrix r' c' =
      if r' = r ∨ c' = c then ⊤ else entry s.matrix r' c' := by
  show entry (dropCol (dropRow s.matrix r) c) r' c' = _
  rw [entry_dropCol, entry_dropRow]
  by_cases h1 : c' = c
  · simp [h1]
  · by_cases h2 : r' = r <;> simp [h1, h2]

theorem inv_step {s s' : DMState} (hinv : Inv s) (h : step s = some s') :
    Inv s' := by
  obtain ⟨hcm, hpc, hcons, honce⟩ := hinv
  obtain ⟨r, c, w, hsel, rfl⟩ := step_eq_some h
  obtain ⟨maxV, hmax, hc, hm, hr, hw⟩ := selectEdge_eq hsel
  refine ⟨?_, ?_, rfl, ?_⟩
  · intro c' hc' r'
    rw [entry_stepState]
    by_cases hcc : c' = c
    · simp [hcc]
    · rcases mem_addMark.mp hc' with rfl | hold
      · exact absurd rfl hcc
      · by_cases hrr : r' = r
        · simp [hrr]
        · rw [if_neg (by tauto)]
          exact hcm c' hold r'
  · intro e he
    simp only [stepState] at he
    rcases List.mem_append.mp he with hold | hnew
    · exact mem_addMark.mpr (Or.inr (hpc e hold))
    · rcases List.mem_singleton.mp hnew with rfl
      exact mem_addMark.mpr (Or.inl rfl)
  · intro a b hab hb hcols
    simp only [stepState] at hb hcols ⊢
    rw [List.length_append] at hb
    by_cases hblen : b < s.mstPath.length
    · have ha : a < s.mstPath.length := lt_trans hab hblen
      rw [List.getD_append _ _ _ _ hblen, List.getD_append _ _ _ _ ha]
        at hcols
      rw [List.getD_append _ _ _ _ hblen]
      exact honce a b hab hblen hcols
    · have hbeq : b = s.mstPath.length := by simp at hb; omega
      subst hbeq
      have ha : a < s.mstPath.length := hab
      rw [getD_concat_length, List.getD_append _ _ _ _ ha] at hcols
      rw [getD_concat_length]
      have hmem : s.mstPath.getD a edgeD ∈ s.mstPath := getD_mem ha edgeD
      have hmarked : c ∈ s.markedCols := by
        have hin := hpc _ hmem
        rw [← hcols] at hin
        exact hin
      show w = ⊤
      rw [hw]
      exact hcm c hmarked r

theorem inv_runLoop {k : Nat} {s s' : DMState} (hinv : Inv s)
    (h : runLoop k s = some s') : Inv s' := by
  induction k generalizing s with
  | zero =>
    have h2 := Option.some.inj h
    rw [← h2]
    exact hinv
  | succ k ih =>
    cases hstep : step s with
    | none =>
      simp only [runLoop, hstep] at h
      cases h
    | some s1 =>
      simp only [runLoop, hstep] at h
      exact ih (inv_step hinv hstep) h

theorem selected_weight {s : DMState} (hcons : Consistent s)
    (hcm : ColMarkedTop s) {r c : Nat} {w : W}
    (hsel : selectEdge s.minCols s.matrix = some (r, c, w)) :
    listMax s.minCols = some w := by
  obtain ⟨maxV, hmax, hc, hm, hr, hw⟩ := selectEdge_eq hsel
  subst hc; subst hr; subst hw
  have hlen : s.minCols.length = s.matrix.length := by
    rw [hcons, length_initMinColumns]
  have hcmem : maxV ∈ s.minCols := listMax_mem hmax
  have hclt : idxOf maxV s.minCols < s.minCols.length := idxOf_lt_length hcmem
  have hgetc : s.minCols.getD (idxOf maxV s.minCols) ⊤ = maxV :=
    getD_idxOf hclt ⊤
  have hcm2 : idxOf maxV s.minCols < s.matrix.length := by
    rw [← hlen]; exact hclt
  set c0 := idxOf maxV s.minCols with hc0def
  rw [hcons, getD_initMinColumns _ _ hcm2] at hgetc
  by_cases hmarked : c0 ∈ s.markedCols
  · rw [if_pos hmarked] at hgetc
    have htop :
        entry s.matrix
          (idxOf (listMin (colEntries s.matrix c0))
            (colEntries s.matrix c0)) c0 = ⊤ := hcm _ hmarked _
    rw [htop, hgetc]
    exact hmax
  · rw [if_neg hmarked] at hgetc
    have hcolne : colEntries s.matrix c0 ≠ [] := by
      intro hnil
      have hlc := length_colEntries s.matrix c0
      rw [hnil] at hlc
      simp at hlc
      omega
    have hminmem := listMin_mem hcolne
    have hrlt := idxOf_lt_length hminmem
    have hgetr := getD_idxOf hrlt (⊤ : W)
    rw [getD_colEntries] at hgetr
    rw [hgetr, hgetc]
    exact hmax

/-! ### Output translation -/

theorem generateOutput_mem {α : Type} (order : List α)
    (path : List (Nat × Nat × W)) (out : List (α × α × W))
    (h : generateOutput order path = some out) :
    ∀ e ∈ out, e.1 ∈ order ∧ e.2.1 ∈ order := by
  induction path generalizing out with
  | nil =>
    have h2 := Option.some.inj h
    rw [← h2]
    intro e he
    cases he
  | cons p rest ih =>
    obtain ⟨i, j, w⟩ := p
    cases h1 : order.get? i with
    | none =>
      simp only [generateOutput, h1] at h
      cases h
    | some a =>
      cases h2 : order.get? j with
      | none =>
        simp only [generateOutput, h1, h2] at h
        cases h
      | some b =>
        cases h3 : generateOutput order rest with
        | none =>
          simp only [generateOutput, h1, h2, h3] at h
          cases h
        | some out' =>
          simp only [generateOutput, h1, h2, h3] at h
          rw [← Option.some.inj h]
          intro e he
          rcases List.mem_cons.mp he with rfl | he'
          · exact ⟨List.get?_mem h1, List.get?_mem h2⟩
          · exact ih out' h3 e he'

theorem runFrom_endpoints {α : Type} [DecidableEq α] {order : List α}
    {g : Graph α} {out : List (α × α × W)}
    (h : runFrom order g = some out) :
    ∀ e ∈ out, e.1 ∈ order ∧ e.2.1 ∈ order := by
  unfold runFrom at h
  cases hloop : runLoop (order.length - 1) (initState order g) with
  | none => rw [hloop] at h; cases h
  | some s =>
    rw [hloop] at h
    exact generateOutput_mem order s.mstPath out h

/-- The state reached after the second loop iteration on the triangle:
the sentinel-weight edge `(0, 2, ⊤)` has been recorded and the matrix and
marked sets are unchanged by the second mask (row 0 and column 2 were
already sentinels). -/
def triS2 : DMState :=
  { matrix := [[⊤, ⊤, ⊤],
               [((1 : ℚ) : W), ⊤, ⊤],
               [((2 : ℚ) : W), ((3 : ℚ) : W), ⊤]]
    minCols := [((1 : ℚ) : W), ((3 : ℚ) : W), ⊤]
    mstPath := [(0, 2, ((2 : ℚ) : W)), (0, 2, (⊤ : W))]
    markedRows := [0]
    markedCols := [2] }

/-! ### Claim theorems -/

/-- C1: on the complete 3-node graph A–B=1, A–C=2, B–C=3 with index
assignment A=0, B=1, C=2, the selection loop does exactly what the claim
describes — the first selected edge is `(A, C, 2)`; in the second
iteration `min_columns` holds the sentinel at the masked column 2, the
selector picks column 2 again, and the second recorded edge carries the
sentinel weight — but `run()` itself never performs these selections on
the source as written: constructing the `DMMSTP` instance raises
`AttributeError`, because line 17 of `dm_mstp.py` reads
`self.marked_columns` (line 66) before line 20 assigns it.  The first
conjunct exhibits the failure; the rest prove the claimed loop behaviour
from the initialization the code intends. -/
theorem triangle_reselects_masked_column :
    runE triOrder triG = .error .attributeError ∧
    selectEdge (initState triOrder triG).minCols
        (initState triOrder triG).matrix = some (0, 2, ((2 : ℚ) : W)) ∧
    step (initState triOrder triG) = some triS1 ∧
    triS1.minCols = [((1 : ℚ) : W), ((3 : ℚ) : W), ⊤] ∧
    selectEdge triS1.minCols triS1.matrix = some (0, 2, (⊤ : W)) ∧
    runFrom triOrder triG =
      some [("A", "C", ((2 : ℚ) : W)), ("A", "C", (⊤ : W))] :=
  ⟨by decide, by decide, by decide, by decide, by decide, by decide⟩

/-- C2: for every `min_columns` sequence and matrix with at least one
column and one row, `_select_edge` returns `(r, c, matrix[r][c])` where
`c` is the first index attaining the maximum of `min_columns` (under ties
the lower column index wins) and `r` is the first row index attaining the
minimum of column `c` of the matrix (under ties the lower row index
wins). -/
theorem selectEdge_spec (mc : List W) (m : List (List W))
    (hmc : 0 < mc.length) (hm : 0 < m.length) :
    ∃ r c, selectEdge mc m = some (r, c, entry m r c) ∧
      c < mc.length ∧
      (∀ i, i < mc.length → mc.getD i ⊤ ≤ mc.getD c ⊤) ∧
      (∀ i, i < c → mc.getD i ⊤ ≠ mc.getD c ⊤) ∧
      r < m.length ∧
      (∀ i, i < m.length → entry m r c ≤ entry m i c) ∧
      (∀ i, i < r → entry m i c ≠ entry m r c) := by
  have hne : mc ≠ [] := List.ne_nil_of_length_pos hmc
  obtain ⟨maxV, hmax⟩ := Option.isSome_iff_exists.mp (listMax_isSome hne)
  have hclt : idxOf maxV mc < mc.length := idxOf_lt_length (listMax_mem hmax)
  have hgetc : mc.getD (idxOf maxV mc) ⊤ = maxV := getD_idxOf hclt ⊤
  have hlcol : (colEntries m (idxOf maxV mc)).length = m.length :=
    length_colEntries _ _
  have hcolne : colEntries m (idxOf maxV mc) ≠ [] := by
    intro hnil
    rw [hnil] at hlcol
    simp at hlcol
    omega
  have hminmem := listMin_mem hcolne
  have hrlt := idxOf_lt_length hminmem
  have hgetr := getD_idxOf hrlt (⊤ : W)
  rw [getD_colEntries] at hgetr
  refine ⟨idxOf (listMin (colEntries m (idxOf maxV mc)))
      (colEntries m (idxOf maxV mc)), idxOf maxV mc, ?_, hclt, ?_, ?_,
      ?_, ?_, ?_⟩
  · simp only [selectEdge, hmax]
    rw [if_neg (by simp [List.isEmpty_iff, hcolne])]
  · intro i hi
    rw [hgetc]
    exact le_listMax hmax (getD_mem hi ⊤)
  · intro i hi
    rw [hgetc]
    exact getD_lt_idxOf hi ⊤
  · rw [← hlcol]
    exact hrlt
  · intro i hi
    rw [hgetr]
    exact listMin_le (getD_colEntries m (idxOf maxV mc) i ▸
      getD_mem (by rw [hlcol]; exact hi) (⊤ : W))
  · intro i hi
    rw [hgetr, ← getD_colEntries m (idxOf maxV mc) i]
    exact getD_lt_idxOf hi ⊤

/-- C2 witness: the selection on the triangle's initial state. -/
theorem selectEdge_spec_witness :
    ∃ r c, selectEdge (initState triOrder triG).minCols
        (initState triOrder triG).matrix =
      some (r, c, entry (initState triOrder triG).matrix r c) := by
  obtain ⟨r, c, hsel, _⟩ := selectEdge_spec (initState triOrder triG).minCols
    (initState triOrder triG).matrix (by decide) (by decide)
  exact ⟨r, c, hsel⟩

/-- C3: the claim says `run()` never raises and that N = 0 and N = 1 give
an empty output.  The code satisfies it only for N = 0; for N = 1 (indeed
any N ≥ 1) the constructor raises `AttributeError` before `run()` can
execute, because `_initialize_min_columns` reads `self.marked_columns`
(line 66) before `__init__` assigns it (line 20).  Under the
initialization the code intends, the N = 1 run would return the empty
sequence. -/
theorem run_degenerate_inputs :
    runE ([] : List String) ([] : Graph String) = .ok [] ∧
    runE ["A"] oneG = .error .attributeError ∧
    runFrom ["A"] oneG = some [] :=
  ⟨by decide, by decide, by decide⟩

/-- C4: `_initialize_min_columns` returns one entry per column of an
`N × N` matrix; a marked column yields the sentinel, an unmarked one a
value that bounds every entry of the column from below and is attained in
some row. -/
theorem initMinColumns_spec (m : List (List W)) (marked : List Nat)
    (hsq : ∀ row ∈ m, row.length = m.length) :
    (initMinColumns m marked).length = m.length ∧
    ∀ c, c < m.length →
      (c ∈ marked → (initMinColumns m marked).getD c ⊤ = ⊤) ∧
      (c ∉ marked →
        (∀ r, r < m.length →
          (initMinColumns m marked).getD c ⊤ ≤ entry m r c) ∧
        (∃ r, r < m.length ∧
          entry m r c = (initMinColumns m marked).getD c ⊤)) := by
  refine ⟨length_initMinColumns m marked, ?_⟩
  intro c hc
  rw [getD_initMinColumns m marked hc]
  constructor
  · intro hmem
    rw [if_pos hmem]
  · intro hmem
    rw [if_neg hmem]
    constructor
    · intro r hr
      rw [← getD_colEntries m c r]
      exact listMin_le (getD_mem (by rw [length_colEntries]; exact hr) ⊤)
    · have hcolne : colEntries m c ≠ [] := by
        intro hnil
        have hlc := length_colEntries m c
        rw [hnil] at hlc
        simp at hlc
        omega
      obtain ⟨r, hrlt, hgetr⟩ := mem_getD (listMin_mem hcolne) (⊤ : W)
      refine ⟨r, by rw [← length_colEntries m c]; exact hrlt, ?_⟩
      rw [← getD_colEntries m c r, hgetr]

/-- C4 witness: the recomputation at the triangle's second iteration. -/
theorem initMinColumns_spec_witness :
    (initMinColumns triS1.matrix triS1.markedCols).length =
      triS1.matrix.length ∧
    (initMinColumns triS1.matrix triS1.markedCols).getD 2 ⊤ = ⊤ :=
  ⟨(initMinColumns_spec triS1.matrix triS1.markedCols (by decide)).1,
   ((initMinColumns_spec triS1.matrix triS1.markedCols (by decide)).2 2
      (by decide)).1 (by decide)⟩

/-- C5 counterexample: the whole N−1 = 2 iteration run on the connected,
duplicate-free triangle selects column index 2 in both iterations, so the
claim that each column index appears at most once among the selected
edges is false (the source in addition raises before running; the loop
here starts from the initialization the code intends). -/
theorem column_reselected_cex :
    (runLoop 2 (initState triOrder triG)).map
        (fun s => s.mstPath.map (fun e => e.2.1)) = some [2, 2] ∧
    (runLoop 2 (initState triOrder triG)).map
        (fun s => (s.mstPath.map (fun e => e.2.1)).count 2) = some 2 :=
  ⟨by decide, by decide⟩

/-- C5 amended: along any run, a column index can repeat only on an edge
recorded with the sentinel weight; equivalently, every edge with a
non-sentinel weight uses a column that no earlier edge used. -/
theorem column_repeat_only_sentinel {α : Type} [DecidableEq α]
    (order : List α) (g : Graph α) (k : Nat) (s : DMState)
    (h : runLoop k (initState order g) = some s)
    (a b : Nat) (hab : a < b) (hb : b < s.mstPath.length)
    (hcol : (s.mstPath.getD b edgeD).2.1 = (s.mstPath.getD a edgeD).2.1) :
    (s.mstPath.getD b edgeD).2.2 = ⊤ :=
  (inv_runLoop (inv_initState order g) h).2.2.2 a b hab hb hcol

/-- C5 witness: the duplicated column of the triangle run carries `⊤`. -/
theorem column_repeat_only_sentinel_witness :
    (triS2.mstPath.getD 1 edgeD).2.2 = ⊤ :=
  column_repeat_only_sentinel triOrder triG 2 triS2 (by decide) 0 1
    (by decide) (by decide) (by decide)

/-- C6 counterexample: on the connected 3-node triangle the finished
output is `[(A, C, 2), (A, C, ⊤)]` — node B occurs in the input but in no
endpoint of the output, refuting the round-trip claim. -/
theorem node_missing_from_output_cex :
    ("B" ∈ nodesOf triG) ∧
    runFrom triOrder triG =
      some [("A", "C", ((2 : ℚ) : W)), ("A", "C", (⊤ : W))] ∧
    ("B" ∉ ((runFrom triOrder triG).getD []).map Prod.fst) ∧
    ("B" ∉ ((runFrom triOrder triG).getD []).map (fun e => e.2.1)) :=
  ⟨by decide, by decide, by decide, by decide⟩

/-- C6 amended: in the direction that does hold, every endpoint of the
output is an original node identifier of the input (indices are
translated back through the inverse index map); not every input node need
appear. -/
theorem output_endpoints_from_input {α : Type} [DecidableEq α]
    (order : List α) (g : Graph α) (out : List (α × α × W))
    (horder : ∀ x ∈ order, x ∈ nodesOf g)
    (hrun : runFrom order g = some out) :
    ∀ e ∈ out, e.1 ∈ nodesOf g ∧ e.2.1 ∈ nodesOf g := by
  intro e he
  have h := runFrom_endpoints hrun e he
  exact ⟨horder _ h.1, horder _ h.2⟩

/-- C6 witness: the first triangle output edge joins input nodes. -/
theorem output_endpoints_from_input_witness :
    "A" ∈ nodesOf triG ∧ "C" ∈ nodesOf triG :=
  output_endpoints_from_input triOrder triG
    [("A", "C", ((2 : ℚ) : W)), ("A", "C", (⊤ : W))] (by decide) (by decide)
    ("A", "C", ((2 : ℚ) : W)) (by decide)

/-- C7: `_mark_and_drop` on a selected edge `(i, j, w)` adds `i` to the
marked rows and `j` to the marked columns, overwrites every entry of row
`i` and of column `j` with the sentinel, leaves every other entry
unchanged, and no loop iteration ever removes an index from either marked
set. -/
theorem markAndDrop_spec :
    (∀ (s : DMState) (i j : Nat) (w : W),
      i ∈ (markAndDrop s (i, j, w)).markedRows ∧
      j ∈ (markAndDrop s (i, j, w)).markedCols ∧
      (∀ c, entry (markAndDrop s (i, j, w)).matrix i c = ⊤) ∧
      (∀ r, entry (markAndDrop s (i, j, w)).matrix r j = ⊤) ∧
      (∀ r c, r ≠ i → c ≠ j →
        entry (markAndDrop s (i, j, w)).matrix r c = entry s.matrix r c)) ∧
    (∀ s s' : DMState, step s = some s' →
      (∀ x ∈ s.markedRows, x ∈ s'.markedRows) ∧
      (∀ x ∈ s.markedCols, x ∈ s'.markedCols)) := by
  constructor
  · intro s i j w
    refine ⟨mem_addMark.mpr (Or.inl rfl), mem_addMark.mpr (Or.inl rfl),
      ?_, ?_, ?_⟩
    · intro c
      show entry (dropCol (dropRow s.matrix i) j) i c = ⊤
      rw [entry_dropCol, entry_dropRow]
      by_cases h : c = j <;> simp [h]
    · intro r
      show entry (dropCol (dropRow s.matrix i) j) r j = ⊤
      rw [entry_dropCol]
      simp
    · intro r c hr hc
      show entry (dropCol (dropRow s.matrix i) j) r c = entry s.matrix r c
      rw [entry_dropCol, if_neg hc, entry_dropRow, if_neg hr]
  · intro s s' h
    obtain ⟨r, c, w, _, rfl⟩ := step_eq_some h
    exact ⟨fun x hx => mem_addMark.mpr (Or.inr hx),
           fun x hx => mem_addMark.mpr (Or.inr hx)⟩

/-- C7 witness: a concrete mark-and-drop and a concrete loop step. -/
theorem markAndDrop_spec_witness :
    (0 : Nat) ∈ (markAndDrop triS1 (0, 1, (⊤ : W))).markedRows ∧
    (2 : Nat) ∈ triS2.markedCols :=
  ⟨(markAndDrop_spec.1 triS1 0 1 ⊤).1,
   (markAndDrop_spec.2 triS1 triS2 (by decide)).2 2 (by decide)⟩

/-- C8: immediately after `_initialize_matrix` builds the matrix from any
input, and before any masking, the matrix is symmetric. -/
theorem buildMatrix_symmetric {α : Type} [DecidableEq α] (order : List α)
    (g : Graph α) (i j : Nat) :
    entry (buildMatrix order g) i j = entry (buildMatrix order g) j i :=
  (buildMatrix_sq_symm order g).2 i j

/-- C9 counterexample: a self-referential input entry (`{'A': {'A': 5}}`)
writes its weight onto the diagonal, so the claim that every diagonal
entry equals the sentinel after construction fails. -/
theorem selfLoop_diagonal_cex :
    entry (buildMatrix ["A"] selfG) 0 0 = ((5 : ℚ) : W) ∧
    entry (buildMatrix ["A"] selfG) 0 0 ≠ (⊤ : W) :=
  ⟨by decide, by decide⟩

/-- C9 amended: if no node of the input lists itself among its own
neighbours, every diagonal entry equals the sentinel immediately after
construction. -/
theorem buildMatrix_diag_sentinel {α : Type} [DecidableEq α]
    (order : List α) (g : Graph α)
    (hself : ∀ p ∈ g, ∀ q ∈ p.2, q.1 ≠ p.1) (d : Nat) :
    entry (buildMatrix order g) d d = ⊤ :=
  (buildMatrix_sq_diag order g hself).2 d

/-- C9 witness: the triangle has no self-loops and a sentinel diagonal. -/
theorem buildMatrix_diag_sentinel_witness :
    entry (buildMatrix triOrder triG) 1 1 = ⊤ :=
  buildMatrix_diag_sentinel triOrder triG (by decide) 1

/-- C10: at every state the selection loop reaches, the stored
`min_columns` equals its recomputation from the current matrix and marked
columns (nothing mutates between the recomputation and the next
selection), and the edge the next iteration appends to `mst_path` carries
exactly the maximum value of `min_columns` at the moment of selection. -/
theorem minCols_consistent_weight_max {α : Type} [DecidableEq α]
    (order : List α) (g : Graph α) (k : Nat) (s : DMState)
    (h : runLoop k (initState order g) = some s) :
    s.minCols = initMinColumns s.matrix s.markedCols ∧
    ∀ s', step s = some s' → ∀ r c w,
      s'.mstPath = s.mstPath ++ [(r, c, w)] →
      listMax s.minCols = some w := by
  have hinv := inv_runLoop (inv_initState order g) h
  refine ⟨hinv.2.2.1, ?_⟩
  intro s' hs' r c w hpath
  obtain ⟨r0, c0, w0, hsel, rfl⟩ := step_eq_some hs'
  have hpath0 : s.mstPath ++ [(r0, c0, w0)] = s.mstPath ++ [(r, c, w)] :=
    hpath
  have h1 := List.append_cancel_left hpath0
  have h2 : (r0, c0, w0) = (r, c, w) := by
    injection h1
  obtain ⟨hr0, hc0, hw0⟩ : r0 = r ∧ c0 = c ∧ w0 = w := by
    simpa [Prod.ext_iff] using h2
  rw [← hw0]
  exact selected_weight hinv.2.2.1 hinv.1 hsel

/-- C10 witness: the first triangle selection records weight 2, the
maximum of the initial `min_columns` `[1, 1, 2]`. -/
theorem minCols_consistent_weight_max_witness :
    listMax (initState triOrder triG).minCols = some ((2 : ℚ) : W) :=
  (minCols_consistent_weight_max triOrder triG 0 (initState triOrder triG)
      rfl).2 triS1 (by decide) 0 2 ((2 : ℚ) : W) (by decide)

end DM
